import Mathlib

/-!
Shallow embedding of src/bot.py (Grok-Discord-Bot).

Python strings are modelled as `List Char`; the tiktoken cl100k_base
token counter is an external library and is abstracted as a parameter
`enc : List Char → Nat` giving the token count of a message content.
Chat turns (the Python dicts with "role" and "content" keys) are the
structure `Msg`. The two mutable global maps of the bot (the
conversation_history and user_requests defaultdicts) are the fields of
`BotState`, and the two transcript-touching paths of the on_message
handler are `on_message_text` and `on_message_image`.
-/

/-- A chat turn: the Python dict with keys "role" and "content". -/
structure Msg where
  role : String
  content : List Char
  deriving DecidableEq, Repr

/-- bot.py line 33. -/
def MAX_TOKENS : Nat := 128000

/-- bot.py line 34. -/
def MAX_RESPONSE_TOKENS : Nat := 400

/-- bot.py line 35. -/
def RATE_LIMIT : Nat := 5

/-- bot.py line 37. -/
def DISCORD_MAX_CHARS : Nat := 1800

/-- The token cap passed to truncate_history at bot.py line 179. -/
def HISTORY_CEILING : Nat := MAX_TOKENS - MAX_RESPONSE_TOKENS - 50

/-- Total token count of a transcript, each turn measured by `enc`
(bot.py line 259 measures one turn). -/
def sumTokens (enc : List Char → Nat) (msgs : List Msg) : Nat :=
  (msgs.map (fun m => enc m.content)).sum

/-- The loop of truncate_history (bot.py lines 255-264): walk the
reversed transcript, keep a turn while the running total stays within
the cap, stop at the first turn that would overflow. The argument list
here is the reversed transcript. -/
def truncGo (enc : List Char → Nat) (max_tokens : Nat) : List Msg → Nat → List Msg
  | [], _ => []
  | msg :: rest, total =>
    if total + enc msg.content ≤ max_tokens then
      truncGo enc max_tokens rest (total + enc msg.content) ++ [msg]
    else []

/-- bot.py lines 252-265: truncate_history(messages, max_tokens). -/
def truncate_history (enc : List Char → Nat) (messages : List Msg) (max_tokens : Nat) : List Msg :=
  truncGo enc max_tokens messages.reverse 0

/-- Helper for the word splitter: Python str.split() with no argument,
accumulating the current word (reversed) in `acc`. -/
def pySplitAux : List Char → List Char → List (List Char)
  | [], [] => []
  | [], acc => [acc.reverse]
  | c :: rest, acc =>
    if c.isWhitespace then
      if acc = [] then pySplitAux rest []
      else acc.reverse :: pySplitAux rest []
    else pySplitAux rest (c :: acc)

/-- Python str.split() with no argument: maximal runs of
non-whitespace characters, empty runs dropped. -/
def pySplit (s : List Char) : List (List Char) :=
  pySplitAux s []

/-- Python str.lower(), restricted to the basic latin letters (the
embedding of the text content uses `Char.toLower` per character). -/
def pyLower (s : List Char) : List Char :=
  s.map Char.toLower

/-- Python str.strip(): drop leading whitespace. -/
def lstripWs (s : List Char) : List Char :=
  s.dropWhile Char.isWhitespace

/-- Python str.strip(): drop trailing whitespace. -/
def rstripWs (s : List Char) : List Char :=
  (s.reverse.dropWhile Char.isWhitespace).reverse

/-- Python str.strip(): drop leading and trailing whitespace. -/
def pyStrip (s : List Char) : List Char :=
  rstripWs (lstripWs s)

/-- bot.py line 62: the keyword list of is_simple_question. -/
def simple_keywords : List (List Char) :=
  ["what is".data, "who is".data, "when is".data,
   "where is".data, "how many".data, "define".data]

/-- bot.py lines 55-63: is_simple_question(content). -/
def is_simple_question (content : List Char) : Bool :=
  let c := pyStrip (pyLower content)
  if (pySplit c).length < 10 then true
  else simple_keywords.any (fun k => k.isPrefixOf c)

/-- The reference truncation algorithm of the spec (section 4.1): while
the total size exceeds the cap, drop the oldest turn. -/
def specTruncate (enc : List Char → Nat) : List Msg → Nat → List Msg
  | [], _ => []
  | m :: rest, cap =>
    if cap < sumTokens enc (m :: rest) then specTruncate enc rest cap
    else m :: rest

/-- Build a chat turn dict (bot.py lines 171-172, 178, 183). -/
def mkTurn (role : String) (content : List Char) : Msg :=
  { role := role, content := content }

/-- bot.py lines 171-172: the two appends on the image-generation
path, with no truncation. -/
def image_path_append (hist : List Msg) (content url : List Char) : List Msg :=
  hist ++ [mkTurn "user" content,
           mkTurn "assistant" ("Generated image: ".data ++ url)]

/-- bot.py lines 178-179: append the user turn, then truncate to
MAX_TOKENS - MAX_RESPONSE_TOKENS - 50. -/
def user_turn_append (enc : List Char → Nat) (hist : List Msg) (content : List Char) : List Msg :=
  truncate_history enc (hist ++ [mkTurn "user" content]) HISTORY_CEILING

/-- bot.py line 183: append the assistant turn, with no truncation. -/
def assistant_turn_append (hist : List Msg) (reply : List Char) : List Msg :=
  hist ++ [mkTurn "assistant" reply]

/-- bot.py lines 80-91: Python str.rfind restricted to one character,
returning the highest index of the character or -1. -/
def rfind : List Char → Char → Int
  | [], _ => -1
  | x :: rest, c =>
    let r := rfind rest c
    if r == -1 then (if x == c then 0 else -1) else r + 1

/-- Python slice text[:i] for an Int index: a nonnegative index takes
a prefix, a negative index drops that many characters from the end. -/
def pySliceTo (s : List Char) (i : Int) : List Char :=
  if i < 0 then s.take (s.length - i.natAbs) else s.take i.toNat

/-- bot.py line 90: the fixed summary suffix. -/
def summaryStr : List Char :=
  "... (response shortened due to Discord\x27s 2000-character limit; key points summarized)".data

/-- bot.py lines 80-91: truncate_to_char_limit(text, max_chars). -/
def truncate_to_char_limit (text : List Char) (max_chars : Nat) : List Char :=
  if text.length ≤ max_chars then text
  else
    let head := text.take max_chars
    let cut0 : Int := rfind head '.'
    let cut1 : Int := if cut0 == -1 then rfind head ' ' else cut0
    let cut2 : Int := if cut1 == -1 then (max_chars : Int) - 100 else cut1
    pySliceTo text cut2 ++ summaryStr

/-- bot.py line 126: the conversation key. -/
def history_key (author_id channel_id : Nat) : String :=
  Nat.repr author_id ++ "_" ++ Nat.repr channel_id

/-- bot.py line 118: prune a timestamp list to the last 60 seconds
(timestamps in seconds, modelled as integers). -/
def prune_requests (now : Int) (ts : List Int) : List Int :=
  ts.filter (fun t => now - t < 60)

/-- The mutable global maps of bot.py lines 47-49: conversation_history
and user_requests (defaultdicts, modelled as total functions). -/
structure BotState where
  conversation_history : String → List Msg
  user_requests : Nat → List Int

/-- Python dict assignment on the conversation_history map. -/
def updateHist (f : String → List Msg) (k : String) (v : List Msg) : String → List Msg :=
  fun k2 => if k2 = k then v else f k2

/-- Python dict assignment on the user_requests map. -/
def updateReqs (f : Nat → List Int) (k : Nat) (v : List Int) : Nat → List Int :=
  fun k2 => if k2 = k then v else f k2

/-- bot.py lines 115-186, text path of on_message: prune the rate
window, stop if the user is rate limited, otherwise record the request
and perform the user-turn append + truncation and the assistant-turn
append on transcript history_key(uid, chan). -/
def on_message_text (enc : List Char → Nat) (st : BotState) (now : Int)
    (uid chan : Nat) (content reply : List Char) : BotState :=
  let pruned := prune_requests now (st.user_requests uid)
  let st1 : BotState := { st with user_requests := updateReqs st.user_requests uid pruned }
  if RATE_LIMIT ≤ pruned.length then st1
  else
    let st2 : BotState :=
      { st1 with user_requests := updateReqs st1.user_requests uid (pruned ++ [now]) }
    let key := history_key uid chan
    let h2 := assistant_turn_append (user_turn_append enc (st2.conversation_history key) content) reply
    { st2 with conversation_history := updateHist st2.conversation_history key h2 }

/-- bot.py lines 115-175, image path of on_message: prune the rate
window, stop if the user is rate limited, otherwise record the request
and perform the two image-path appends on transcript
history_key(uid, chan). -/
def on_message_image (st : BotState) (now : Int)
    (uid chan : Nat) (content url : List Char) : BotState :=
  let pruned := prune_requests now (st.user_requests uid)
  let st1 : BotState := { st with user_requests := updateReqs st.user_requests uid pruned }
  if RATE_LIMIT ≤ pruned.length then st1
  else
    let st2 : BotState :=
      { st1 with user_requests := updateReqs st1.user_requests uid (pruned ++ [now]) }
    let key := history_key uid chan
    let newHist := image_path_append (st2.conversation_history key) content url
    { st2 with conversation_history := updateHist st2.conversation_history key newHist }

/-- Pure decimal rendering of a natural number, the mathematical core
of Nat.repr (which Python f-strings use through str(int)). -/
def natToDigits (n : Nat) : List Char :=
  if n < 10 then [Nat.digitChar n]
  else natToDigits (n / 10) ++ [Nat.digitChar (n % 10)]
decreasing_by exact Nat.div_lt_self (by omega) (by omega)

/-- Decimal value of a digit string, a left inverse of natToDigits. -/
def digitsVal (s : List Char) : Nat :=
  s.foldl (fun a c => 10 * a + (c.toNat - 48)) 0

theorem sumTokens_nil (enc : List Char → Nat) : sumTokens enc [] = 0 := rfl

theorem sumTokens_cons (enc : List Char → Nat) (m : Msg) (l : List Msg) :
    sumTokens enc (m :: l) = enc m.content + sumTokens enc l := by
  simp [sumTokens]

theorem sumTokens_append (enc : List Char → Nat) (l₁ l₂ : List Msg) :
    sumTokens enc (l₁ ++ l₂) = sumTokens enc l₁ + sumTokens enc l₂ := by
  simp [sumTokens]

theorem sumTokens_reverse (enc : List Char → Nat) (l : List Msg) :
    sumTokens enc l.reverse = sumTokens enc l := by
  simp [sumTokens, List.map_reverse, List.sum_reverse]

/-- How the truncation loop treats the oldest turn, which it reaches
last: the turn is kept exactly when the whole list still fits. -/
theorem truncGo_append_last (enc : List Char → Nat) (cap : Nat) :
    ∀ (l : List Msg) (m : Msg) (total : Nat),
      truncGo enc cap (l ++ [m]) total =
        if total + sumTokens enc l + enc m.content ≤ cap then
          m :: truncGo enc cap l total
        else
          truncGo enc cap l total := by
  intro l
  induction l with
  | nil =>
    intro m total
    simp [truncGo, sumTokens_nil]
  | cons x l' ih =>
    intro m total
    by_cases hx : total + enc x.content ≤ cap
    · have hcond : (total + sumTokens enc (x :: l') + enc m.content ≤ cap) ↔
          (total + enc x.content + sumTokens enc l' + enc m.content ≤ cap) := by
        rw [sumTokens_cons]; constructor <;> intro h <;> omega
      simp only [List.cons_append, truncGo, if_pos hx, List.append_eq, ih]
      by_cases hc : total + enc x.content + sumTokens enc l' + enc m.content ≤ cap
      · rw [if_pos hc, if_pos (hcond.mpr hc)]
        simp
      · rw [if_neg hc, if_neg (fun h => hc (hcond.mp h))]
    · have hc : ¬ (total + sumTokens enc (x :: l') + enc m.content ≤ cap) := by
        rw [sumTokens_cons]; omega
      simp only [List.cons_append, truncGo, if_neg hx, if_neg hc]

/-- Recursive characterisation of truncate_history: the oldest turn is
kept (along with everything newer) exactly when the whole transcript
fits under the cap; otherwise truncation proceeds on the rest. -/
theorem truncate_history_cons (enc : List Char → Nat) (m : Msg) (rest : List Msg) (cap : Nat) :
    truncate_history enc (m :: rest) cap =
      if sumTokens enc (m :: rest) ≤ cap then m :: truncate_history enc rest cap
      else truncate_history enc rest cap := by
  have h := truncGo_append_last enc cap rest.reverse m 0
  simp only [truncate_history, List.reverse_cons, h, Nat.zero_add, sumTokens_reverse,
    sumTokens_cons]
  by_cases hc : sumTokens enc rest + enc m.content ≤ cap
  · rw [if_pos hc, if_pos (by omega)]
  · rw [if_neg hc, if_neg (by omega)]

theorem truncate_history_nil (enc : List Char → Nat) (cap : Nat) :
    truncate_history enc [] cap = [] := rfl

/-- A transcript already within the cap is left unchanged. -/
theorem truncate_history_of_le (enc : List Char → Nat) :
    ∀ (msgs : List Msg) (cap : Nat), sumTokens enc msgs ≤ cap →
      truncate_history enc msgs cap = msgs := by
  intro msgs
  induction msgs with
  | nil => intro cap _; rfl
  | cons m rest ih =>
    intro cap h
    have hrest : sumTokens enc rest ≤ cap := by
      rw [sumTokens_cons] at h; omega
    rw [truncate_history_cons, if_pos h, ih cap hrest]

/-- The truncated transcript always fits under the cap. -/
theorem sumTokens_truncate_le (enc : List Char → Nat) :
    ∀ (msgs : List Msg) (cap : Nat),
      sumTokens enc (truncate_history enc msgs cap) ≤ cap := by
  intro msgs
  induction msgs with
  | nil => intro cap; simp [truncate_history_nil, sumTokens_nil]
  | cons m rest ih =>
    intro cap
    rw [truncate_history_cons]
    by_cases h : sumTokens enc (m :: rest) ≤ cap
    · have hrest : sumTokens enc rest ≤ cap := by
        rw [sumTokens_cons] at h; omega
      rw [if_pos h, truncate_history_of_le enc rest cap hrest]
      exact h
    · rw [if_neg h]; exact ih cap

/-- The truncated transcript is a contiguous suffix of the input. -/
theorem truncate_history_suffix (enc : List Char → Nat) :
    ∀ (msgs : List Msg) (cap : Nat),
      List.IsSuffix (truncate_history enc msgs cap) msgs := by
  intro msgs
  induction msgs with
  | nil => intro cap; rw [truncate_history_nil]
  | cons m rest ih =>
    intro cap
    rw [truncate_history_cons]
    by_cases h : sumTokens enc (m :: rest) ≤ cap
    · have hrest : sumTokens enc rest ≤ cap := by
        rw [sumTokens_cons] at h; omega
      rw [if_pos h, truncate_history_of_le enc rest cap hrest]
    · rw [if_neg h]
      exact (ih cap).trans (List.suffix_cons m rest)

/-- The code algorithm agrees with the drop-oldest reference algorithm. -/
theorem truncate_history_eq_specTruncate (enc : List Char → Nat) :
    ∀ (msgs : List Msg) (cap : Nat),
      truncate_history enc msgs cap = specTruncate enc msgs cap := by
  intro msgs
  induction msgs with
  | nil => intro cap; rfl
  | cons m rest ih =>
    intro cap
    rw [truncate_history_cons, specTruncate]
    by_cases h : sumTokens enc (m :: rest) ≤ cap
    · have hrest : sumTokens enc rest ≤ cap := by
        rw [sumTokens_cons] at h; omega
      rw [if_pos h, if_neg (by omega), truncate_history_of_le enc rest cap hrest]
    · rw [if_neg h, if_pos (by omega), ih]

theorem rfind_ge_neg_one (c : Char) : ∀ s : List Char, -1 ≤ rfind s c := by
  intro s
  induction s with
  | nil => simp [rfind]
  | cons x rest ih =>
    simp only [rfind]
    by_cases h : rfind rest c == -1
    · rw [if_pos h]
      by_cases hx : x == c
      · rw [if_pos hx]; omega
      · rw [if_neg hx]
    · rw [if_neg h]; omega

theorem rfind_lt_length (c : Char) : ∀ s : List Char, rfind s c < s.length := by
  intro s
  induction s with
  | nil => simp [rfind]
  | cons x rest ih =>
    simp only [rfind, List.length_cons]
    by_cases h : rfind rest c == -1
    · rw [if_pos h]
      by_cases hx : x == c
      · rw [if_pos hx]; omega
      · rw [if_neg hx]; omega
    · rw [if_neg h]
      push_cast
      omega

theorem digitChar_toNat_eq : ∀ m, m < 10 → (Nat.digitChar m).toNat = 48 + m := by decide

theorem digitChar_ne_underscore : ∀ m, m < 10 → Nat.digitChar m ≠ '_' := by decide

/-- The fueled rendering loop of Nat.repr computes natToDigits when
given enough fuel. -/
theorem toDigitsCore_eq_natToDigits :
    ∀ (fuel n : Nat) (acc : List Char), n < fuel →
      Nat.toDigitsCore 10 fuel n acc = natToDigits n ++ acc := by
  intro fuel
  induction fuel with
  | zero => intro n acc h; omega
  | succ fuel ih =>
    intro n acc h
    simp only [Nat.toDigitsCore]
    by_cases h10 : n / 10 = 0
    · rw [if_pos h10, natToDigits, if_pos (by omega), Nat.mod_eq_of_lt (by omega)]
      simp
    · rw [if_neg h10, natToDigits, if_neg (show ¬ n < 10 by omega),
        ih (n / 10) _ (by omega)]
      simp

/-- The decimal rendering used by the conversation key. -/
theorem repr_data (n : Nat) : (Nat.repr n).data = natToDigits n := by
  show Nat.toDigitsCore 10 (n + 1) n [] = natToDigits n
  rw [toDigitsCore_eq_natToDigits (n + 1) n [] (by omega), List.append_nil]

theorem digitsVal_append_singleton (l : List Char) (c : Char) :
    digitsVal (l ++ [c]) = 10 * digitsVal l + (c.toNat - 48) := by
  simp [digitsVal, List.foldl_append]

/-- digitsVal is a left inverse of natToDigits. -/
theorem digitsVal_natToDigits (n : Nat) : digitsVal (natToDigits n) = n := by
  induction n using Nat.strong_induction_on with
  | _ n ih =>
    rw [natToDigits]
    by_cases h : n < 10
    · rw [if_pos h]
      have := digitChar_toNat_eq n h
      simp [digitsVal]
      omega
    · rw [if_neg h, digitsVal_append_singleton,
        ih (n / 10) (Nat.div_lt_self (by omega) (by omega)),
        digitChar_toNat_eq (n % 10) (Nat.mod_lt n (by omega))]
      omega

theorem natToDigits_injective : Function.Injective natToDigits := by
  intro a b h
  rw [← digitsVal_natToDigits a, ← digitsVal_natToDigits b, h]

theorem underscore_not_mem_natToDigits (n : Nat) : '_' ∉ natToDigits n := by
  induction n using Nat.strong_induction_on with
  | _ n ih =>
    rw [natToDigits]
    by_cases h : n < 10
    · rw [if_pos h]
      intro hm
      exact digitChar_ne_underscore n h (List.mem_singleton.mp hm).symm
    · rw [if_neg h]
      intro hm
      rcases List.mem_append.mp hm with hm1 | hm2
      · exact ih (n / 10) (Nat.div_lt_self (by omega) (by omega)) hm1
      · exact digitChar_ne_underscore (n % 10) (Nat.mod_lt n (by omega))
          (List.mem_singleton.mp hm2).symm

/-- Splitting a string at a separator character that occurs in neither
left part is unambiguous. -/
theorem append_sep_inj :
    ∀ (a c b d : List Char), '_' ∉ a → '_' ∉ c →
      a ++ '_' :: b = c ++ '_' :: d → a = c ∧ b = d := by
  intro a
  induction a with
  | nil =>
    intro c b d _ hc h
    cases c with
    | nil =>
      simp only [List.nil_append, List.cons.injEq] at h
      exact ⟨rfl, h.2⟩
    | cons y c2 =>
      simp only [List.nil_append, List.cons_append, List.cons.injEq] at h
      exact absurd (h.1 ▸ List.mem_cons_self y c2) hc
  | cons x a2 ih =>
    intro c b d ha hc h
    cases c with
    | nil =>
      simp only [List.cons_append, List.nil_append, List.cons.injEq] at h
      exact absurd (h.1 ▸ List.mem_cons_self x a2) ha
    | cons y c2 =>
      simp only [List.cons_append, List.cons.injEq] at h
      have ha2 : '_' ∉ a2 := fun hm => ha (List.mem_cons_of_mem x hm)
      have hc2 : '_' ∉ c2 := fun hm => hc (List.mem_cons_of_mem y hm)
      rcases ih c2 b d ha2 hc2 h.2 with ⟨h1, h2⟩
      exact ⟨by rw [h.1, h1], h2⟩

/-- The conversation key determines both ids. -/
theorem history_key_injective (a b c d : Nat)
    (h : history_key a b = history_key c d) : a = c ∧ b = d := by
  have h2 := congrArg String.data h
  simp only [history_key, String.data_append, List.append_assoc] at h2
  simp only [List.singleton_append, repr_data] at h2
  rcases append_sep_inj _ _ _ _ (underscore_not_mem_natToDigits a)
    (underscore_not_mem_natToDigits c) h2 with ⟨h3, h4⟩
  exact ⟨natToDigits_injective h3, natToDigits_injective h4⟩

theorem ofNat_add32_not_ws :
    ∀ n, n < 91 → 65 ≤ n → Char.isWhitespace (Char.ofNat (n + 32)) = false := by decide

/-- Lowercasing a character does not change whether it is whitespace. -/
theorem toLower_isWhitespace (c : Char) :
    (Char.toLower c).isWhitespace = c.isWhitespace := by
  show (if c.toNat ≥ 65 ∧ c.toNat ≤ 90 then Char.ofNat (c.toNat + 32) else c).isWhitespace
    = c.isWhitespace
  by_cases h : c.toNat ≥ 65 ∧ c.toNat ≤ 90
  · rw [if_pos h]
    have h1 : Char.isWhitespace (Char.ofNat (c.toNat + 32)) = false :=
      ofNat_add32_not_ws c.toNat (by omega) h.1
    have hs : c ≠ ' ' := by intro hh; subst hh; exact absurd h.1 (by decide)
    have ht : c ≠ '\t' := by intro hh; subst hh; exact absurd h.1 (by decide)
    have hr : c ≠ '\r' := by intro hh; subst hh; exact absurd h.1 (by decide)
    have hn : c ≠ '\n' := by intro hh; subst hh; exact absurd h.1 (by decide)
    have h2 : c.isWhitespace = false := by
      simp [Char.isWhitespace, hs, ht, hr, hn]
    rw [h1, h2]
  · rw [if_neg h]

/-- Mapping a whitespace-preserving character function over the text
does not change the number of split words. -/
theorem pySplitAux_map_length (f : Char → Char)
    (hf : ∀ c, (f c).isWhitespace = c.isWhitespace) :
    ∀ (s acc : List Char),
      (pySplitAux (s.map f) (acc.map f)).length = (pySplitAux s acc).length := by
  intro s
  induction s with
  | nil =>
    intro acc
    cases acc with
    | nil => rfl
    | cons a as => simp [pySplitAux]
  | cons c rest ih =>
    intro acc
    simp only [List.map_cons, pySplitAux, hf c]
    by_cases hw : c.isWhitespace = true
    · rw [if_pos hw, if_pos hw]
      by_cases hacc : acc = []
      · subst hacc
        simpa using ih []
      · rw [if_neg (by simpa [List.map_eq_nil_iff] using hacc), if_neg hacc,
          List.length_cons, List.length_cons]
        have := ih []
        simp only [List.map_nil] at this
        omega
    · rw [if_neg hw, if_neg hw]
      have := ih (c :: acc)
      simpa using this

theorem pySplit_pyLower_length (s : List Char) :
    (pySplit (pyLower s)).length = (pySplit s).length := by
  have := pySplitAux_map_length Char.toLower toLower_isWhitespace s []
  simpa [pySplit, pyLower] using this

theorem pySplit_lstrip_length (s : List Char) :
    (pySplit (lstripWs s)).length = (pySplit s).length := by
  induction s with
  | nil => rfl
  | cons c rest ih =>
    simp only [lstripWs, List.dropWhile_cons]
    by_cases hw : c.isWhitespace = true
    · rw [if_pos hw]
      have hcons : pySplit (c :: rest) = pySplit rest := by
        simp [pySplit, pySplitAux, hw]
      rw [hcons]
      exact ih
    · rw [if_neg hw]

/-- Splitting a string of pure whitespace yields at most the pending
word. -/
theorem pySplitAux_ws_nil :
    ∀ (t acc : List Char), (∀ c ∈ t, c.isWhitespace = true) →
      (pySplitAux t acc).length = (pySplitAux [] acc).length := by
  intro t
  induction t with
  | nil => intro acc _; rfl
  | cons c t2 ih =>
    intro acc h
    have hc : c.isWhitespace = true := h c (List.mem_cons_self c t2)
    have hrest : ∀ x ∈ t2, x.isWhitespace = true :=
      fun x hm => h x (List.mem_cons_of_mem c hm)
    by_cases hacc : acc = []
    · subst hacc
      simp only [pySplitAux, hc, if_pos rfl, if_true]
      rw [ih [] hrest]
      simp [pySplitAux]
    · simp only [pySplitAux, hc, if_true, if_neg hacc]
      rw [List.length_cons, ih [] hrest]
      cases acc with
      | nil => exact absurd rfl hacc
      | cons a as => simp [pySplitAux]

/-- Appending trailing whitespace does not change the number of split
words. -/
theorem pySplitAux_append_ws (t : List Char) (ht : ∀ c ∈ t, c.isWhitespace = true) :
    ∀ (s acc : List Char),
      (pySplitAux (s ++ t) acc).length = (pySplitAux s acc).length := by
  intro s
  induction s with
  | nil =>
    intro acc
    rw [List.nil_append, pySplitAux_ws_nil t acc ht]
  | cons c s2 ih =>
    intro acc
    simp only [List.cons_append, pySplitAux, List.append_eq]
    by_cases hw : c.isWhitespace = true
    · rw [if_pos hw, if_pos hw]
      by_cases hacc : acc = []
      · rw [if_pos hacc, if_pos hacc, ih]
      · rw [if_neg hacc, if_neg hacc, List.length_cons, List.length_cons, ih]
    · rw [if_neg hw, if_neg hw, ih]

theorem pySplit_rstrip_length (s : List Char) :
    (pySplit (rstripWs s)).length = (pySplit s).length := by
  have hdecomp : rstripWs s ++ (s.reverse.takeWhile Char.isWhitespace).reverse = s := by
    rw [rstripWs, ← List.reverse_append, List.takeWhile_append_dropWhile,
      List.reverse_reverse]
  have hws : ∀ c ∈ (s.reverse.takeWhile Char.isWhitespace).reverse,
      c.isWhitespace = true := by
    intro c hc
    rw [List.mem_reverse] at hc
    exact List.mem_takeWhile_imp hc
  have h := pySplitAux_append_ws _ hws (rstripWs s) []
  rw [hdecomp] at h
  exact h.symm

theorem pySplit_pyStrip_length (s : List Char) :
    (pySplit (pyStrip s)).length = (pySplit s).length := by
  rw [pyStrip, pySplit_rstrip_length, pySplit_lstrip_length]

/-- The word count used inside is_simple_question equals the word
count of the raw text. -/
theorem pySplit_norm_length (content : List Char) :
    (pySplit (pyStrip (pyLower content))).length = (pySplit content).length := by
  rw [pySplit_pyStrip_length, pySplit_pyLower_length]

/-- C1: for every transcript and every non-negative token cap,
truncate_history returns a contiguous suffix of the input (relative
order preserved, oldest turns dropped first) whose total token count,
measured per turn by the cl100k_base token counter enc, does not
exceed the cap. -/
theorem claim_C1_truncate_suffix_and_bounded
    (enc : List Char → Nat) (messages : List Msg) (max_tokens : Nat) :
    List.IsSuffix (truncate_history enc messages max_tokens) messages ∧
      sumTokens enc (truncate_history enc messages max_tokens) ≤ max_tokens :=
  ⟨truncate_history_suffix enc messages max_tokens,
   sumTokens_truncate_le enc messages max_tokens⟩

/-- C2 counterexample: the claim that the stored transcript never
exceeds the ceiling after every handler append is false. The
assistant-turn append of bot.py line 183 is not followed by
truncation; with a token counter that charges the ceiling for each
turn, the transcript right after that append holds twice the
ceiling. -/
theorem claim_C2_counterexample :
    HISTORY_CEILING <
      sumTokens (fun _ => HISTORY_CEILING)
        (assistant_turn_append
          (user_turn_append (fun _ => HISTORY_CEILING) [] "hi".data)
          "ok".data) := by
  decide

/-- C2 amended: only the user-turn append of the text path is followed
by truncation (bot.py lines 178-179), and after it the stored
transcript never exceeds MAX_TOKENS - MAX_RESPONSE_TOKENS - 50; the
assistant-turn append and the image-path appends carry no such
bound. -/
theorem claim_C2_user_append_bounded
    (enc : List Char → Nat) (hist : List Msg) (content : List Char) :
    sumTokens enc (user_turn_append enc hist content) ≤ HISTORY_CEILING :=
  sumTokens_truncate_le enc (hist ++ [mkTurn "user" content]) HISTORY_CEILING

/-- C3 counterexample: the claim says the essay prompt classifies as
detailed (False), but it has nine whitespace-separated words, which is
below the ten-word threshold, so is_simple_question returns True. -/
theorem claim_C3_counterexample :
    ¬ (is_simple_question "What is gravity?".data = true ∧
        is_simple_question
          "Write a detailed 500-word essay comparing two economic theories".data
          = false) := by
  decide

/-- C3 amended: both example texts classify as simple; the essay
prompt has nine words, below the ten-word threshold. -/
theorem claim_C3_examples :
    is_simple_question "What is gravity?".data = true ∧
      is_simple_question
        "Write a detailed 500-word essay comparing two economic theories".data
        = true := by
  decide

/-- C4: truncate_history coincides with the drop-oldest-while-too-big
reference algorithm of the spec on every transcript and cap, and in
particular on three turns of token size 50 with cap 80 both return
only the newest turn. -/
theorem claim_C4_refines_drop_oldest :
    (∀ (enc : List Char → Nat) (messages : List Msg) (cap : Nat),
        truncate_history enc messages cap = specTruncate enc messages cap) ∧
      truncate_history (fun _ => 50)
          [mkTurn "user" [], mkTurn "assistant" [], mkTurn "user" []] 80
        = [mkTurn "user" []] ∧
      specTruncate (fun _ => 50)
          [mkTurn "user" [], mkTurn "assistant" [], mkTurn "user" []] 80
        = [mkTurn "user" []] :=
  ⟨fun enc messages cap => truncate_history_eq_specTruncate enc messages cap,
   by decide, by decide⟩

/-- C5: every text with fewer than ten whitespace-separated words is
classified simple. -/
theorem claim_C5_short_text_simple (content : List Char)
    (h : (pySplit content).length < 10) :
    is_simple_question content = true := by
  have h2 : (pySplit (pyStrip (pyLower content))).length < 10 := by
    rw [pySplit_norm_length]
    exact h
  show (if (pySplit (pyStrip (pyLower content))).length < 10 then true
        else simple_keywords.any (fun k => k.isPrefixOf (pyStrip (pyLower content)))) = true
  rw [if_pos h2]

theorem claim_C5_witness :
    (pySplit "hi there".data).length < 10 ∧
      is_simple_question "hi there".data = true :=
  ⟨by decide, claim_C5_short_text_simple "hi there".data (by decide)⟩

/-- C6: truncation is idempotent; a second truncation with the same
cap leaves the transcript unchanged. -/
theorem claim_C6_truncate_idempotent
    (enc : List Char → Nat) (messages : List Msg) (cap : Nat) :
    truncate_history enc (truncate_history enc messages cap) cap
      = truncate_history enc messages cap :=
  truncate_history_of_le enc _ cap (sumTokens_truncate_le enc messages cap)

/-- C7: the Context Manager operations are total: is_simple_question
returns a Boolean on every text, the empty text included (where it
returns true), and truncate_history on the empty transcript is a
no-op for every cap and token counter. -/
theorem claim_C7_total_on_degenerate_inputs :
    (∀ content : List Char,
        is_simple_question content = true ∨ is_simple_question content = false) ∧
      (∀ (enc : List Char → Nat) (cap : Nat), truncate_history enc [] cap = []) ∧
      is_simple_question [] = true := by
  refine ⟨fun content => ?_, fun enc cap => rfl, by decide⟩
  cases h : is_simple_question content
  · exact Or.inr rfl
  · exact Or.inl rfl

/-- Bound used by C9: a slice index between 0 and the cap takes at
most cap characters. -/
theorem pySliceTo_length_le (s : List Char) (i : Int) (cap : Nat)
    (hi : 0 ≤ i) (hcap : i ≤ (cap : Int)) : (pySliceTo s i).length ≤ cap := by
  unfold pySliceTo
  rw [if_neg (by omega)]
  have h1 : (s.take i.toNat).length ≤ i.toNat := by
    rw [List.length_take]
    omega
  omega

/-- Every Python prefix slice is a List.take. -/
theorem pySliceTo_eq_take (s : List Char) (i : Int) :
    ∃ k, pySliceTo s i = s.take k := by
  unfold pySliceTo
  by_cases h : i < 0
  · rw [if_pos h]
    exact ⟨s.length - i.natAbs, rfl⟩
  · rw [if_neg h]
    exact ⟨i.toNat, rfl⟩

/-- C8: the conversation key is injective in the author and channel
ids, and handling a message for one key (either handler path) leaves
the transcript of every other key untouched. -/
theorem claim_C8_key_injective_and_frame :
    (∀ a b c d : Nat, history_key a b = history_key c d → a = c ∧ b = d) ∧
      (∀ (enc : List Char → Nat) (st : BotState) (now : Int) (uid chan : Nat)
          (content reply : List Char) (k2 : String), k2 ≠ history_key uid chan →
          (on_message_text enc st now uid chan content reply).conversation_history k2
            = st.conversation_history k2) ∧
      (∀ (st : BotState) (now : Int) (uid chan : Nat) (content url : List Char)
          (k2 : String), k2 ≠ history_key uid chan →
          (on_message_image st now uid chan content url).conversation_history k2
            = st.conversation_history k2) := by
  refine ⟨history_key_injective, ?_, ?_⟩
  · intro enc st now uid chan content reply k2 hk
    simp only [on_message_text]
    split
    · rfl
    · simp [updateHist, hk]
  · intro st now uid chan content url k2 hk
    simp only [on_message_image]
    split
    · rfl
    · simp [updateHist, hk]

theorem claim_C8_witness :
    (1 = 1 ∧ 2 = 2) ∧
      (on_message_text (fun _ => 0)
          (BotState.mk (fun _ => []) (fun _ => [])) 0 1 2 [] []).conversation_history "9"
        = [] :=
  ⟨claim_C8_key_injective_and_frame.1 1 2 1 2 rfl,
   by
     have h := claim_C8_key_injective_and_frame.2.1 (fun _ => 0)
       (BotState.mk (fun _ => []) (fun _ => [])) 0 1 2 [] [] "9" (by decide)
     simpa using h⟩

set_option maxRecDepth 40000 in
/-- C9 counterexample: the claimed length bound max_chars plus the
summary length fails for small caps. For 200 characters of text and
max_chars = 10, no period or space occurs in the window, the fallback
cut index 10 - 100 is negative, and the Python slice then keeps all
but the last 90 characters, far above the claimed bound. -/
theorem claim_C9_counterexample :
    10 + summaryStr.length <
      (truncate_to_char_limit (List.replicate 200 'a') 10).length := by
  decide

/-- C9 amended: text within the limit is returned unchanged; an
over-long text yields a prefix of the text followed by the fixed
summary suffix; and when max_chars is at least 100 (so the fallback
cut index is non-negative) the result length is at most max_chars
plus the summary length — the bound does not hold for smaller caps. -/
theorem claim_C9_char_limit_shape (text : List Char) (max_chars : Nat) :
    (text.length ≤ max_chars → truncate_to_char_limit text max_chars = text) ∧
      (max_chars < text.length →
        ∃ k, truncate_to_char_limit text max_chars = text.take k ++ summaryStr) ∧
      (max_chars < text.length → 100 ≤ max_chars →
        (truncate_to_char_limit text max_chars).length
          ≤ max_chars + summaryStr.length) := by
  refine ⟨fun h => by simp [truncate_to_char_limit, h], ?_, ?_⟩
  · intro h
    have hn : ¬ text.length ≤ max_chars := by omega
    simp only [truncate_to_char_limit, if_neg hn]
    obtain ⟨k, hk⟩ := pySliceTo_eq_take text
      (if (if rfind (text.take max_chars) '.' == -1 then
            rfind (text.take max_chars) ' '
          else rfind (text.take max_chars) '.') == -1 then
        (max_chars : Int) - 100
      else
        if rfind (text.take max_chars) '.' == -1 then
          rfind (text.take max_chars) ' '
        else rfind (text.take max_chars) '.')
    exact ⟨k, by rw [hk]⟩
  · intro h h100
    have hn : ¬ text.length ≤ max_chars := by omega
    simp only [truncate_to_char_limit, if_neg hn]
    rw [List.length_append]
    have hhead : (text.take max_chars).length = max_chars := by
      rw [List.length_take]
      omega
    have hcut : ∀ i : Int, -1 ≤ i → i < (max_chars : Int) → ¬ (i == -1) = true →
        (pySliceTo text i).length ≤ max_chars := by
      intro i h1 h2 h3
      rw [beq_iff_eq] at h3
      exact pySliceTo_length_le text i max_chars (by omega) (by omega)
    by_cases hc1 : ((if rfind (text.take max_chars) '.' == -1 then
          rfind (text.take max_chars) ' '
        else rfind (text.take max_chars) '.') == -1) = true
    · rw [if_pos hc1]
      have : (pySliceTo text ((max_chars : Int) - 100)).length ≤ max_chars :=
        pySliceTo_length_le text _ max_chars (by omega) (by omega)
      omega
    · rw [if_neg hc1]
      by_cases hc0 : (rfind (text.take max_chars) '.' == -1) = true
      · rw [if_pos hc0] at hc1 ⊢
        have hb1 := rfind_ge_neg_one ' ' (text.take max_chars)
        have hb2 := rfind_lt_length ' ' (text.take max_chars)
        rw [hhead] at hb2
        have := hcut (rfind (text.take max_chars) ' ') hb1 hb2 hc1
        omega
      · rw [if_neg hc0] at hc1 ⊢
        have hb1 := rfind_ge_neg_one '.' (text.take max_chars)
        have hb2 := rfind_lt_length '.' (text.take max_chars)
        rw [hhead] at hb2
        have := hcut (rfind (text.take max_chars) '.') hb1 hb2 hc1
        omega

set_option maxRecDepth 40000 in
theorem claim_C9_witness :
    ("ab".data.length ≤ 5 ∧ truncate_to_char_limit "ab".data 5 = "ab".data) ∧
      (100 < (List.replicate 150 'a').length ∧
        (truncate_to_char_limit (List.replicate 150 'a') 100).length
          ≤ 100 + summaryStr.length) ∧
      (5 < "a b.cd".data.length ∧
        ∃ k, truncate_to_char_limit "a b.cd".data 5 = "a b.cd".data.take k ++ summaryStr) :=
  ⟨⟨by decide, (claim_C9_char_limit_shape "ab".data 5).1 (by decide)⟩,
   ⟨by decide,
    (claim_C9_char_limit_shape (List.replicate 150 'a') 100).2.2 (by decide) (by decide)⟩,
   ⟨by decide, (claim_C9_char_limit_shape "a b.cd".data 5).2.1 (by decide)⟩⟩

/-- C10: after the rate-limiting block, the stored timestamp list for
the user holds only timestamps of the preceding 60 seconds; if the
stored list respected the RATE_LIMIT bound before, it does after; and
when the user already has RATE_LIMIT timestamps inside the window the
handler returns with every conversation transcript unmodified. -/
theorem claim_C10_rate_limit_invariant (enc : List Char → Nat) (st : BotState)
    (now : Int) (uid chan : Nat) (content reply : List Char) :
    (∀ t ∈ (on_message_text enc st now uid chan content reply).user_requests uid,
        now - t < 60) ∧
      ((st.user_requests uid).length ≤ RATE_LIMIT →
        ((on_message_text enc st now uid chan content reply).user_requests uid).length
          ≤ RATE_LIMIT) ∧
      (RATE_LIMIT ≤ (prune_requests now (st.user_requests uid)).length →
        (on_message_text enc st now uid chan content reply).conversation_history
          = st.conversation_history) := by
  simp only [on_message_text]
  split
  · next hlim =>
    refine ⟨?_, ?_, fun _ => rfl⟩
    · intro t ht
      simp only [updateReqs, if_pos rfl] at ht
      have := List.of_mem_filter ht
      simpa using this
    · intro hlen
      simp only [updateReqs, if_pos rfl]
      calc (prune_requests now (st.user_requests uid)).length
          ≤ (st.user_requests uid).length := List.length_filter_le _ _
        _ ≤ RATE_LIMIT := hlen
  · next hlim =>
    refine ⟨?_, ?_, fun hcontra => absurd hcontra hlim⟩
    · intro t ht
      simp only [updateReqs, if_pos rfl] at ht
      rcases List.mem_append.mp ht with h1 | h2
      · have := List.of_mem_filter h1
        simpa using this
      · rcases List.mem_singleton.mp h2 with rfl
        omega
    · intro hlen
      simp only [updateReqs, eq_self_iff_true, if_true, List.length_append,
        List.length_singleton]
      omega

theorem claim_C10_witness :
    (((BotState.mk (fun _ => []) (fun _ => [0, 0, 0, 0, 0])).user_requests 3).length
        ≤ RATE_LIMIT) ∧
      (((on_message_text (fun _ => 0)
          (BotState.mk (fun _ => []) (fun _ => [0, 0, 0, 0, 0]))
          1 3 4 [] []).user_requests 3).length ≤ RATE_LIMIT) ∧
      RATE_LIMIT ≤ (prune_requests 1
        ((BotState.mk (fun _ => []) (fun _ => [0, 0, 0, 0, 0])).user_requests 3)).length ∧
      (on_message_text (fun _ => 0)
          (BotState.mk (fun _ => []) (fun _ => [0, 0, 0, 0, 0]))
          1 3 4 [] []).conversation_history
        = (BotState.mk (fun _ => []) (fun _ => [0, 0, 0, 0, 0])).conversation_history :=
  ⟨by decide,
   (claim_C10_rate_limit_invariant (fun _ => 0)
     (BotState.mk (fun _ => []) (fun _ => [0, 0, 0, 0, 0])) 1 3 4 [] []).2.1 (by decide),
   by decide,
   (claim_C10_rate_limit_invariant (fun _ => 0)
     (BotState.mk (fun _ => []) (fun _ => [0, 0, 0, 0, 0])) 1 3 4 [] []).2.2 (by decide)⟩
